import Mathlib

/-!
# Verification of the page-path materialization subsystem of the Pucked CMS

Shallow embedding of the hierarchical page-path subsystem: the `pages` and
`page_translations` tables, the tree builder (`buildPageTree`), the path
generator in database mode (`generateFullPath`) and tree mode
(`getFullPathFromTree`), the three path-update strategies, the menu
projector (`getMenuTree`), and the page server actions
(`createPageAction`, `updatePageAction`, `deletePageAction`).

Integer columns are modelled as `Nat` (`id`, both ids are positive
autoincrement keys) and `Int` (`sortOrder`); text columns as `String`;
the nullable self-reference `parent_id` as `Option Nat`.  A table is a
`List` of rows in storage order; a drizzle
`select().where(eq(col, x)).limit(1)` is `List.find?`, a `select()` with
no limit is `List.filter`, `orderBy(asc(sortOrder))` is a stable
insertion sort, and an `update().where(eq(id, x))` is a `List.map` that
rewrites the matching rows.  Functions whose JavaScript originals recurse
along parent pointers (and would diverge on a cyclic table) take an
explicit fuel argument; theorems instantiate the fuel large enough that,
on the acyclic tables the claims quantify over, the value agrees with the
JavaScript function.
-/

namespace Pucked

/-- A row of the `pages` table
(schema in `src/docs/FULL_PATH_IMPLEMENTATION.md`: `id`, `title`,
`slug` (unique), `fullPath` (not null, default `""`), `isDraft`
(default false), `showOnMenu` (default true), nullable `parentId`
self-reference, `sortOrder` (default 0)). -/
structure Page where
  id : Nat
  title : String
  slug : String
  fullPath : String
  isDraft : Bool
  showOnMenu : Bool
  parentId : Option Nat
  sortOrder : Int
deriving Repr, DecidableEq

/-- A row of the `page_translations` table: composite key
`(pageId, locale)`, a title, an opaque content blob and a published
flag. -/
structure PageTranslation where
  pageId : Nat
  locale : String
  title : String
  content : String
  published : Bool
deriving Repr, DecidableEq

/-- The relational store the subsystem operates on: the `pages` table and
the `page_translations` table, each as a list of rows in storage
order. -/
structure DB where
  pages : List Page
  translations : List PageTranslation
deriving Repr, DecidableEq

/-- `array.join("/")` on a list of path segments, as used by
`generateFullPath` (`pathSegments.join('/')`). -/
def joinSegs : List String → String
  | [] => ""
  | [s] => s
  | s :: t :: rest => s ++ "/" ++ joinSegs (t :: rest)

/-- The `while (currentId !== null)` loop of `generateFullPath`
(`src/content/docs/dev/code-quality-issues.md`, section 6.2): look up the
current id, stop (keeping the segments accumulated so far) when the
lookup misses, otherwise prepend the slug (`pathSegments.unshift`) and
move to the parent.  `fuel` bounds the number of iterations; the
JavaScript loop is unbounded and would diverge on a cyclic parent chain. -/
def generateFullPathLoop : Nat → List Page → Option Nat → List String → List String
  | _, _, none, acc => acc
  | 0, _, some _, acc => acc
  | fuel + 1, l, some cid, acc =>
    match l.find? (fun p => p.id == cid) with
    | none => acc
    | some page => generateFullPathLoop fuel l page.parentId (page.slug :: acc)

/-- Database-mode path generator `generateFullPath(pageId)`: walk the
parent chain by repeated single-row lookups and join the collected slugs
with `/`.  On an acyclic table a chain visits pairwise-distinct rows, so
`db.pages.length` iterations of fuel reproduce the unbounded JavaScript
loop exactly. -/
def generateFullPath (db : DB) (pageId : Nat) : String :=
  joinSegs (generateFullPathLoop db.pages.length db.pages (some pageId) [])

/-- A node of the transient in-memory page tree built by `buildPageTree`:
the page row spread into the node, the page's published translations, the
preferred translation (English, else the first published one, else null),
and the recursively built children. -/
inductive PageTreeNode where
  | mk (page : Page) (translations : List PageTranslation)
      (translation : Option PageTranslation) (children : List PageTreeNode)

def PageTreeNode.page : PageTreeNode → Page
  | .mk p _ _ _ => p

def PageTreeNode.children : PageTreeNode → List PageTreeNode
  | .mk _ _ _ c => c

/-- The grouping of the `page_translations` rows by page id built in
`savePageOrder` (`src/app/actions/page.ts`): pushing each row onto
`translationsMap.get(t.pageId)` in table order makes `map.get(id)` the
in-order sublist of rows with that page id. -/
def translationsMapOf (ts : List PageTranslation) : Nat → List PageTranslation :=
  fun pid => ts.filter (fun t => t.pageId == pid)

/-- `buildPageTree(pages, translationsMap, parentId)` from
`src/content/docs/dev/code-quality-issues.md`, section 6.1: filter the
flat list to the children of `parentId` (in list order), attach published
translations and the English-or-first fallback, and recurse with each
page's own id.  The JavaScript recursion is unbounded (a cyclic
`parentId` chain would overflow the stack); `fuel` bounds the depth, and
any fuel exceeding the tree's depth yields the JavaScript value. -/
def buildPageTree : Nat → List Page → (Nat → List PageTranslation) → Option Nat → List PageTreeNode
  | 0, _, _, _ => []
  | fuel + 1, pages, translationsMap, parentId =>
    (pages.filter (fun page => page.parentId == parentId)).map (fun page =>
      let translations := translationsMap page.id
      let publishedTranslations := translations.filter (fun t => t.published)
      let englishTranslation := publishedTranslations.find? (fun t => t.locale == "en")
      let fallbackTranslation := englishTranslation.orElse (fun _ => publishedTranslations.head?)
      PageTreeNode.mk page publishedTranslations fallbackTranslation
        (buildPageTree fuel pages translationsMap (some page.id)))

/-- Stable insert of a page into a list already sorted by `sortOrder`:
descend past strictly smaller keys, so that among equal keys earlier
input rows stay first. -/
def insertBySortOrder (p : Page) : List Page → List Page
  | [] => [p]
  | q :: rest =>
    if q.sortOrder < p.sortOrder then q :: insertBySortOrder p rest
    else p :: q :: rest

/-- The `orderBy(asc(pages.sortOrder))` of the drizzle queries feeding the
tree builder and the menu projector, modelled as a stable insertion sort
(equal keys keep their storage order). -/
def orderBySortOrder : List Page → List Page
  | [] => []
  | p :: rest => insertBySortOrder p (orderBySortOrder rest)

/-- Modelled from the spec: `getPagesTree()` (`lib/page.ts` is not in the
source tree; `src/docs/FULL_PATH_IMPLEMENTATION.md` and the `savePageOrder`
action show its shape) selects all pages ordered by `sortOrder`, groups
all translations by page id, and calls
`buildPageTree(allPages, translationsMap, null)`. -/
def getPagesTree (db : DB) : List PageTreeNode :=
  let allPages := orderBySortOrder db.pages
  buildPageTree (allPages.length + 1) allPages (translationsMapOf db.translations) none

/-- Whitespace class of the JavaScript `\s` used by `slugify`, restricted
to the ASCII whitespace characters. -/
def jsWhitespace (c : Char) : Bool :=
  c == ' ' || c == '\t' || c == '\n' || c == '\r' || c == Char.ofNat 11 || c == Char.ofNat 12

/-- `text.replace(/X+/g, r)` for a character class `X`: each maximal run
of characters satisfying `p` is replaced by the single character `r`.
The flag records whether the previous character was inside a run. -/
def collapseRuns (p : Char → Bool) (r : Char) : List Char → Bool → List Char
  | [], _ => []
  | c :: rest, inRun =>
    if p c then
      if inRun then collapseRuns p r rest true
      else r :: collapseRuns p r rest true
    else c :: collapseRuns p r rest false

/-- The character class `[a-z0-9-]` kept by `slugify`. -/
def isSlugChar (c : Char) : Bool :=
  (Char.ofNat 97 ≤ c && c ≤ Char.ofNat 122) ||
  (Char.ofNat 48 ≤ c && c ≤ Char.ofNat 57) ||
  c == Char.ofNat 45

/-- `String.trim` of JavaScript: drop whitespace from both ends. -/
def trimChars (l : List Char) : List Char :=
  ((l.dropWhile (fun c => jsWhitespace c)).reverse.dropWhile (fun c => jsWhitespace c)).reverse

/-- `slugify` from `src/app/actions.ts`: lowercase, each whitespace run
becomes a single `-`, characters outside `[a-z0-9-]` are removed, runs of
`-` collapse to one, and the result is trimmed. -/
def slugify (text : String) : String :=
  let lowered := text.data.map Char.toLower
  let dashed := collapseRuns jsWhitespace (Char.ofNat 45) lowered false
  let kept := dashed.filter isSlugChar
  let collapsed := collapseRuns (fun c => c == Char.ofNat 45) (Char.ofNat 45) kept false
  String.mk (trimChars collapsed)

/-- Outcome of `createPageAction`. -/
inductive CreateResult where
  | invalidTitle
  | created (page : Page)
deriving Repr, DecidableEq

/-- `createPageAction` from `src/app/actions.ts`: validate the title
(1 to 100 characters), derive the slug with `slugify`, and insert a page
row carrying only `title`, `slug` and `isDraft = true` — every other
column takes its schema default (`fullPath = ""`, `showOnMenu = true`,
`parentId = null`, `sortOrder = 0`), and the action never writes
`fullPath` nor calls `updatePageFullPath`.  Two empty draft translations
(`en`, `fa`) are inserted alongside.  The database assigns the fresh row
id, modelled as the `newId` argument. -/
def createPageAction (db : DB) (newId : Nat) (title : String) : CreateResult × DB :=
  if title.length < 1 || 100 < title.length then (CreateResult.invalidTitle, db)
  else
    let slug := slugify title
    let newPage : Page :=
      { id := newId, title := title, slug := slug, fullPath := "",
        isDraft := true, showOnMenu := true, parentId := none, sortOrder := 0 }
    (CreateResult.created newPage,
      { pages := db.pages ++ [newPage],
        translations := db.translations ++
          [ { pageId := newId, locale := "en", title := title, content := "", published := false },
            { pageId := newId, locale := "fa", title := title, content := "", published := false } ] })

/-- The materialized-path invariant of the spec, as a decidable check
over a store: a root page's `fullPath` is its slug, and a child's
`fullPath` is its parent's `fullPath` plus `/` plus its slug. -/
def fullPathInvariantHolds (db : DB) : Bool :=
  db.pages.all (fun p =>
    match p.parentId with
    | none => p.fullPath == p.slug
    | some a =>
      db.pages.all (fun q => !(q.id == a) || p.fullPath == q.fullPath ++ "/" ++ p.slug))

/-- `pat.data` is an initial segment of `s.data`: the
`full_path LIKE '<old>/%'` test Strategy B uses to select descendants,
character by character. -/
def startsWithChars : List Char → List Char → Bool
  | [], _ => true
  | _ :: _, [] => false
  | a :: as, b :: bs => a == b && startsWithChars as bs

/-- `string.split('/')` on the character list: `[]` maps to `[""]`,
a slash opens a new segment, any other character extends the first
segment. -/
def splitSlashChars : List Char → List String
  | [] => [""]
  | c :: rest =>
    match splitSlashChars rest with
    | [] => [String.mk [c]]
    | s :: ss =>
      if c == '/' then "" :: s :: ss
      else String.mk (c :: s.data) :: ss

/-- `fullPath.split('/')`. -/
def splitSlash (s : String) : List String :=
  splitSlashChars s.data

/-- Modelled from the spec: Strategy B, `updateFullPathForSlugChange
(pageId, newSlug)` (spec §4.3; the body in `lib/page.ts` is absent from
the source tree — only its `full_path LIKE '<oldFullPath>/%'` descendant
query is quoted in `src/content/docs/dev/code-quality-issues.md` §3.1).
Read the page's stored `fullPath` before mutation, drop its final
segment to get the parent prefix, join it with the new slug (just the
new slug for a root), write the page's new `slug` and `fullPath`, find
every page whose `fullPath` starts with the old `fullPath` plus `/` and
substitute the new `fullPath` for that prefix by pure string
substitution. -/
def updateFullPathForSlugChange (db : DB) (pageId : Nat) (newSlug : String) : DB :=
  match db.pages.find? (fun p => p.id == pageId) with
  | none => db
  | some page =>
    let oldFullPath := page.fullPath
    let segs := splitSlash oldFullPath
    let newFullPath :=
      if segs.length ≤ 1 then newSlug
      else joinSegs segs.dropLast ++ "/" ++ newSlug
    { db with pages := db.pages.map (fun p =>
        if p.id == pageId then { p with slug := newSlug, fullPath := newFullPath }
        else if startsWithChars (oldFullPath ++ "/").data p.fullPath.data then
          { p with fullPath := newFullPath ++ String.mk (p.fullPath.data.drop oldFullPath.data.length) }
        else p) }

/-- Outcome of `deletePageAction`. -/
inductive DeleteResult where
  | pageNotFound
  | hasChildren
  | deleted
deriving Repr, DecidableEq

/-- `deletePageAction` from `src/app/actions/page.ts`: look up the page
(error if missing), look up any page whose `parentId` is the page (error
if found), else delete the row; the foreign-key cascade noted in the
source comment removes the page's translations with it. -/
def deletePageAction (db : DB) (pageId : Nat) : DeleteResult × DB :=
  match db.pages.find? (fun p => p.id == pageId) with
  | none => (DeleteResult.pageNotFound, db)
  | some _ =>
    match db.pages.find? (fun p => p.parentId == some pageId) with
    | some _ => (DeleteResult.hasChildren, db)
    | none =>
      (DeleteResult.deleted,
        { pages := db.pages.filter (fun p => !(p.id == pageId)),
          translations := db.translations.filter (fun t => !(t.pageId == pageId)) })

/-- Outcome of `updatePageAction`. -/
inductive UpdateResult where
  | pageNotFound
  | slugTaken
  | updated
deriving Repr, DecidableEq

/-- The write phase of `updatePageAction`: set `title`, `slug`,
`isDraft`, `showOnMenu` on the row, then run the Strategy B propagation
`updateFullPathForSlugChange(pageId, slug)`. -/
def applyPageUpdate (db : DB) (pageId : Nat) (title slug : String)
    (isDraft showOnMenu : Bool) : DB :=
  let db1 : DB := { db with pages := db.pages.map (fun p =>
      if p.id == pageId then
        { p with title := title, slug := slug, isDraft := isDraft, showOnMenu := showOnMenu }
      else p) }
  updateFullPathForSlugChange db1 pageId slug

/-- `updatePageAction` from `src/app/actions/page.ts` (after the zod
validation of the form fields, which is outside this model): look up the
page (error if missing), look up any page holding the submitted slug and
fail before any write if it is a different page (`slugConflict &&
slugConflict.id !== pageId`), else perform the update and the Strategy B
propagation. -/
def updatePageAction (db : DB) (pageId : Nat) (title slug : String)
    (isDraft showOnMenu : Bool) : UpdateResult × DB :=
  match db.pages.find? (fun p => p.id == pageId) with
  | none => (UpdateResult.pageNotFound, db)
  | some _ =>
    match db.pages.find? (fun p => p.slug == slug) with
    | some conflict =>
      if conflict.id ≠ pageId then (UpdateResult.slugTaken, db)
      else (UpdateResult.updated, applyPageUpdate db pageId title slug isDraft showOnMenu)
    | none => (UpdateResult.updated, applyPageUpdate db pageId title slug isDraft showOnMenu)

/-- A node of the navigation menu returned by `getMenuTree`. -/
inductive MenuItem where
  | mk (id : Nat) (title slug fullPath : String) (children : List MenuItem)

/-- Whether a page passes the menu filter of `getMenuTree`
(`src/lib/page-tree.ts`): `showOnMenu` is set and some stored
translation for the requested locale is published. -/
def passesMenuFilter (db : DB) (locale : String) (p : Page) : Bool :=
  p.showOnMenu &&
    db.translations.any (fun t => t.pageId == p.id && t.locale == locale && t.published)

/-- The display title `getMenuTree` uses: `page.translations[0].title`,
the first stored translation for the locale that is published. -/
def menuTitleOf (db : DB) (locale : String) (p : Page) : String :=
  match db.translations.find? (fun t => t.pageId == p.id && t.locale == locale && t.published) with
  | some t => t.title
  | none => ""

/-- The two-pass, mutation-based tree assembly of `getMenuTree`
(`src/lib/page-tree.ts` lines 33 to 64), read functionally: the
imperative code makes one `MenuItem` per filtered page, then pushes each
item onto the `children` array of the item whose id equals its
`parentId` (onto the root list when `parentId === null`), and an item
whose parent id is absent from the map is pushed nowhere.  Every push
lands in the children of the unique item with the matching id, so the
finished root list unfolds to this recursion over the filtered list.
`fuel` bounds the unfolding depth; the object graph the source builds
has finite depth exactly on acyclic parent chains, where any
sufficiently large fuel yields its value. -/
def buildMenuForest : Nat → List Page → (Page → String) → Option Nat → List MenuItem
  | 0, _, _, _ => []
  | fuel + 1, included, titleOf, parentId =>
    (included.filter (fun p => p.parentId == parentId)).map (fun p =>
      MenuItem.mk p.id (titleOf p) p.slug p.fullPath
        (buildMenuForest fuel included titleOf (some p.id)))

/-- `getMenuTree(locale)` from `src/lib/page-tree.ts`: select the pages
with `showOnMenu` ordered by `sortOrder`, keep those having a published
translation for the locale, and assemble the tree. -/
def getMenuTree (db : DB) (locale : String) : List MenuItem :=
  let shown := orderBySortOrder (db.pages.filter (fun p => p.showOnMenu))
  let included := shown.filter (fun p =>
    db.translations.any (fun t => t.pageId == p.id && t.locale == locale && t.published))
  buildMenuForest (included.length + 1) included (menuTitleOf db locale) none

/-- Whether a menu item with the given page id occurs anywhere (at any
depth) in a menu forest. -/
def menuHasId (k : Nat) : List MenuItem → Bool
  | [] => false
  | MenuItem.mk i _ _ _ children :: rest =>
    i == k || menuHasId k children || menuHasId k rest

/-! ## Example fixtures used by witnesses and counterexamples -/

/-- A root page whose slug chain is broken: its `parentId` names a row
that does not exist. -/
def exDangling : Page :=
  { id := 5, title := "Lead", slug := "lead", fullPath := "about/team/lead",
    isDraft := false, showOnMenu := true, parentId := some 99, sortOrder := 0 }

/-- A root page with `sortOrder` 5 listed before one with `sortOrder` 3. -/
def exRootA : Page :=
  { id := 1, title := "A", slug := "a", fullPath := "a",
    isDraft := false, showOnMenu := true, parentId := none, sortOrder := 5 }

/-- A root page with `sortOrder` 3 listed after one with `sortOrder` 5. -/
def exRootB : Page :=
  { id := 2, title := "B", slug := "b", fullPath := "b",
    isDraft := false, showOnMenu := true, parentId := none, sortOrder := 3 }

/-- A root page hidden from the menu (`showOnMenu = false`) that still
has a published English translation. -/
def exMenuParent : Page :=
  { id := 1, title := "About", slug := "about", fullPath := "about",
    isDraft := false, showOnMenu := false, parentId := none, sortOrder := 0 }

/-- A child of `exMenuParent` that itself passes the menu filter. -/
def exMenuChild : Page :=
  { id := 2, title := "Team", slug := "team", fullPath := "about/team",
    isDraft := false, showOnMenu := true, parentId := some 1, sortOrder := 1 }

/-- The published English translation of `exMenuParent`. -/
def exTrParent : PageTranslation :=
  { pageId := 1, locale := "en", title := "About", content := "", published := true }

/-- The published English translation of `exMenuChild`. -/
def exTrChild : PageTranslation :=
  { pageId := 2, locale := "en", title := "Team", content := "", published := true }

/-- A store holding a menu-hidden parent and a menu-visible child, both
with published English translations. -/
def exMenuDB : DB :=
  { pages := [exMenuParent, exMenuChild], translations := [exTrParent, exTrChild] }

/-! ## Basic facts about the stable sort -/

theorem insertBySortOrder_perm (p : Page) (l : List Page) :
    (insertBySortOrder p l).Perm (p :: l) := by
  induction l with
  | nil => exact List.Perm.refl _
  | cons q rest ih =>
    rw [insertBySortOrder]
    split
    · exact (ih.cons q).trans (List.Perm.swap p q rest)
    · exact List.Perm.refl _

theorem orderBySortOrder_perm (l : List Page) : (orderBySortOrder l).Perm l := by
  induction l with
  | nil => exact List.Perm.refl _
  | cons p rest ih =>
    exact (insertBySortOrder_perm p (orderBySortOrder rest)).trans (ih.cons p)

/-! ## C1 -/

/-- C1: the spec requires the materialized-path invariant — a root page's
`fullPath` equals its slug — to hold in particular immediately after
`createPageAction` completes successfully.  The code inserts the new row
without writing `fullPath` (the column keeps its schema default `""`) and
never invokes the Strategy A recompute, so creating a page titled
`"About"` in an empty store yields a root row with slug `"about"` and
`fullPath` `""`: the invariant is false. -/
theorem createPageAction_breaks_invariant :
    (createPageAction { pages := [], translations := [] } 1 "About").2.pages.map
        (fun p => (p.parentId, p.slug, p.fullPath)) = [(none, "about", "")] ∧
    fullPathInvariantHolds (createPageAction { pages := [], translations := [] } 1 "About").2
      = false := by
  decide

/-! ## C6 -/

/-- C6: the database-mode generator never raises on missing rows: a
missing starting id yields the empty string, and a missing parent partway
up the chain stops the walk, leaving exactly the slugs accumulated so
far, joined by `/` (stated both for the loop with any accumulator and for
a one-step broken chain). -/
theorem generateFullPath_missing_rows :
    (∀ db pid, db.pages.find? (fun p => p.id == pid) = none →
      generateFullPath db pid = "") ∧
    (∀ fuel l cid acc, l.find? (fun p => p.id == cid) = none →
      generateFullPathLoop (fuel + 1) l (some cid) acc = acc) ∧
    (∀ db pid page q, db.pages.find? (fun p => p.id == pid) = some page →
      page.parentId = some q → db.pages.find? (fun p => p.id == q) = none →
      generateFullPath db pid = page.slug) := by
  refine ⟨?_, ?_, ?_⟩
  · intro db pid h
    unfold generateFullPath
    cases hl : db.pages.length with
    | zero => simp [generateFullPathLoop, joinSegs]
    | succ n => simp [generateFullPathLoop, h, joinSegs]
  · intro fuel l cid acc h
    simp [generateFullPathLoop, h]
  · intro db pid page q hfind hpar hmiss
    unfold generateFullPath
    cases hl : db.pages.length with
    | zero =>
      rw [List.length_eq_zero] at hl
      rw [hl] at hfind
      simp [List.find?] at hfind
    | succ n =>
      rw [show generateFullPathLoop (n + 1) db.pages (some pid) [] =
          generateFullPathLoop n db.pages page.parentId [page.slug] by
        simp [generateFullPathLoop, hfind]]
      rw [hpar]
      cases n with
      | zero => simp [generateFullPathLoop, joinSegs]
      | succ m => simp [generateFullPathLoop, hmiss, joinSegs]

/-- Witness for C6 at concrete inputs: an empty store, a bare loop with a
nonempty accumulator, and a one-page store whose only row has a dangling
parent pointer. -/
theorem generateFullPath_missing_rows_witness :
    generateFullPath { pages := [], translations := [] } 7 = "" ∧
    generateFullPathLoop 4 [] (some 7) ["x"] = ["x"] ∧
    generateFullPath { pages := [exDangling], translations := [] } 5 = "lead" :=
  ⟨generateFullPath_missing_rows.1 { pages := [], translations := [] } 7 rfl,
   generateFullPath_missing_rows.2.1 3 [] 7 ["x"] rfl,
   generateFullPath_missing_rows.2.2 { pages := [exDangling], translations := [] } 5
     exDangling 99 rfl rfl rfl⟩

/-! ## C8 -/

/-- C8 counterexample: `buildPageTree` does not sort the siblings it
returns — it preserves the order of the flat input list.  On an input
list whose two root pages carry `sortOrder` 5 and then 3, the returned
siblings carry `sortOrder` `[5, 3]`, which is not ascending as the claim
requires for every flat page list. -/
theorem buildPageTree_siblings_not_sorted :
    ((buildPageTree 2 [exRootA, exRootB] (fun _ => []) none).map
      (fun n => n.page.sortOrder)) = [5, 3] ∧
    ¬ ((5 : Int) ≤ 3) := by
  decide

/-- C8 (amended): `buildPageTree` returns exactly one node per input page
whose `parentId` equals the argument, in the order of the input list
(ascending by `sortOrder` exactly when the input — as the callers'
`orderBy` queries provide — is already so ordered, stably); each node's
children are built recursively from the same inputs with the node's own
id; and a `parentId` matching no page, including one absent from the list
entirely, yields the empty array rather than an error. -/
theorem buildPageTree_contract :
    (∀ fuel pages tm parentId,
      (buildPageTree (fuel + 1) pages tm parentId).map PageTreeNode.page =
        pages.filter (fun p => p.parentId == parentId)) ∧
    (∀ fuel pages tm parentId, ∀ n ∈ buildPageTree (fuel + 1) pages tm parentId,
      n.children = buildPageTree fuel pages tm (some n.page.id)) ∧
    (∀ fuel pages tm parentId, (∀ p ∈ pages, p.parentId ≠ parentId) →
      buildPageTree fuel pages tm parentId = []) ∧
    (∀ fuel pages tm parentId,
      List.Pairwise (fun a b : Page => a.sortOrder ≤ b.sortOrder) pages →
      List.Pairwise (fun a b : PageTreeNode => a.page.sortOrder ≤ b.page.sortOrder)
        (buildPageTree (fuel + 1) pages tm parentId)) := by
  refine ⟨?_, ?_, ?_, ?_⟩
  · intro fuel pages tm parentId
    simp only [buildPageTree, List.map_map]
    generalize List.filter (fun page => page.parentId == parentId) pages = m
    induction m with
    | nil => rfl
    | cons a t ih => simp only [List.map_cons, Function.comp, PageTreeNode.page, ih]
  · intro fuel pages tm parentId n hn
    simp only [buildPageTree, List.mem_map] at hn
    obtain ⟨p, hp, rfl⟩ := hn
    rfl
  · intro fuel pages tm parentId h
    cases fuel with
    | zero => rfl
    | succ m =>
      simp only [buildPageTree, List.map_eq_nil_iff, List.filter_eq_nil_iff]
      intro p hp
      simpa using h p hp
  · intro fuel pages tm parentId h
    simp only [buildPageTree]
    refine List.Pairwise.map _ ?_ (List.Pairwise.filter _ h)
    intro a b hab
    exact hab

/-- Witness for C8 at concrete inputs: a `parentId` absent from the list
gives the empty forest. -/
theorem buildPageTree_contract_witness :
    buildPageTree 4 [exRootA, exRootB] (fun _ => []) (some 42) = [] :=
  buildPageTree_contract.2.2.1 4 [exRootA, exRootB] (fun _ => []) (some 42) (by decide)

/-! ## C9 -/

/-- C9: `deletePageAction` deletes a page only if it has no children.
Whenever some row's `parentId` equals the target id, the action reports
an error and the store is untouched; for an existing page with no
children the page row is deleted and its translations are removed with
it by the cascade. -/
theorem deletePageAction_guards_children :
    ∀ db pid,
      ((∃ c ∈ db.pages, c.parentId = some pid) →
        (deletePageAction db pid).1 ≠ DeleteResult.deleted ∧
        (deletePageAction db pid).2 = db) ∧
      (∀ p ∈ db.pages, p.id = pid → (∀ c ∈ db.pages, c.parentId ≠ some pid) →
        deletePageAction db pid =
          (DeleteResult.deleted,
            { pages := db.pages.filter (fun q => !(q.id == pid)),
              translations := db.translations.filter (fun t => !(t.pageId == pid)) })) := by
  intro db pid
  constructor
  · rintro ⟨c, hc, hcp⟩
    cases hfind : db.pages.find? (fun p => p.id == pid) with
    | none => simp [deletePageAction, hfind]
    | some pg =>
      cases hch : db.pages.find? (fun p => p.parentId == some pid) with
      | none =>
        rw [List.find?_eq_none] at hch
        exact absurd (by simpa using hcp) (by simpa using hch c hc)
      | some ch => simp [deletePageAction, hfind, hch]
  · intro p hp hpid hnoch
    cases hfind : db.pages.find? (fun p => p.id == pid) with
    | none =>
      rw [List.find?_eq_none] at hfind
      exact absurd (by simpa using hpid) (by simpa using hfind p hp)
    | some pg =>
      cases hch : db.pages.find? (fun q => q.parentId == some pid) with
      | some ch =>
        have h1 := List.find?_some hch
        have h2 : ch ∈ db.pages := List.mem_of_find?_eq_some hch
        exact absurd (by simpa using h1) (hnoch ch h2)
      | none => simp [deletePageAction, hfind, hch]

/-- Witness for C9: deleting the parent of a stored child fails and
leaves the store unchanged; deleting the childless child removes exactly
its row and its translation. -/
theorem deletePageAction_guards_children_witness :
    ((deletePageAction
        { pages := [exMenuParent, exMenuChild], translations := [exTrParent, exTrChild] } 1).1
      ≠ DeleteResult.deleted ∧
     (deletePageAction
        { pages := [exMenuParent, exMenuChild], translations := [exTrParent, exTrChild] } 1).2
      = { pages := [exMenuParent, exMenuChild], translations := [exTrParent, exTrChild] }) ∧
    deletePageAction
        { pages := [exMenuParent, exMenuChild], translations := [exTrParent, exTrChild] } 2
      = (DeleteResult.deleted, { pages := [exMenuParent], translations := [exTrParent] }) := by
  constructor
  · exact (deletePageAction_guards_children
      { pages := [exMenuParent, exMenuChild], translations := [exTrParent, exTrChild] } 1).1
      ⟨exMenuChild, by decide, by decide⟩
  · have h := (deletePageAction_guards_children
      { pages := [exMenuParent, exMenuChild], translations := [exTrParent, exTrChild] } 2).2
      exMenuChild (by decide) (by decide) (by decide)
    rw [h]
    decide

/-! ## C10 -/

/-- C10: `updatePageAction` fails before any write when the submitted
slug is stored on a different page (the store comes back unchanged, so
the Strategy B propagation observably never ran), and a page's own
current slug is not treated as a conflict because the check excludes the
page's own id. -/
theorem updatePageAction_slug_conflict :
    ∀ db pid t s d m,
      ((db.pages.map (fun p => p.slug)).Nodup →
        (∃ p ∈ db.pages, p.id = pid) →
        (∃ q ∈ db.pages, q.slug = s ∧ q.id ≠ pid) →
        updatePageAction db pid t s d m = (UpdateResult.slugTaken, db)) ∧
      ((db.pages.map (fun p => p.slug)).Nodup →
        ∀ p ∈ db.pages, p.id = pid → p.slug = s →
        (updatePageAction db pid t s d m).1 = UpdateResult.updated) := by
  intro db pid t s d m
  constructor
  · rintro hnd ⟨p, hp, hpid⟩ ⟨q, hq, hqs, hqne⟩
    cases hfind : db.pages.find? (fun r => r.id == pid) with
    | none =>
      rw [List.find?_eq_none] at hfind
      exact absurd (by simpa using hpid) (by simpa using hfind p hp)
    | some pg =>
      cases hslug : db.pages.find? (fun r => r.slug == s) with
      | none =>
        rw [List.find?_eq_none] at hslug
        exact absurd (by simpa using hqs) (by simpa using hslug q hq)
      | some conflict =>
        have h1 : conflict.slug = s := by simpa using List.find?_some hslug
        have h2 : conflict ∈ db.pages := List.mem_of_find?_eq_some hslug
        have h3 : conflict = q :=
          List.inj_on_of_nodup_map hnd h2 hq (h1.trans hqs.symm)
        have h4 : conflict.id ≠ pid := h3 ▸ hqne
        simp [updatePageAction, hfind, hslug, h4]
  · intro hnd p hp hpid hps
    cases hfind : db.pages.find? (fun r => r.id == pid) with
    | none =>
      rw [List.find?_eq_none] at hfind
      exact absurd (by simpa using hpid) (by simpa using hfind p hp)
    | some pg =>
      cases hslug : db.pages.find? (fun r => r.slug == s) with
      | none =>
        rw [List.find?_eq_none] at hslug
        exact absurd (by simpa using hps) (by simpa using hslug p hp)
      | some conflict =>
        have h1 : conflict.slug = s := by simpa using List.find?_some hslug
        have h2 : conflict ∈ db.pages := List.mem_of_find?_eq_some hslug
        have h3 : conflict = p :=
          List.inj_on_of_nodup_map hnd h2 hp (h1.trans hps.symm)
        have h4 : ¬ (conflict.id ≠ pid) := by simp [h3, hpid]
        simp [updatePageAction, hfind, hslug, h4]

/-- Witness for C10: submitting page 2's slug for page 1 is rejected with
the store unchanged; resubmitting page 1's own slug goes through. -/
theorem updatePageAction_slug_conflict_witness :
    updatePageAction { pages := [exRootA, exRootB], translations := [] } 1 "T" "b" false false
      = (UpdateResult.slugTaken, { pages := [exRootA, exRootB], translations := [] }) ∧
    (updatePageAction { pages := [exRootA, exRootB], translations := [] } 1 "T" "a" false false).1
      = UpdateResult.updated :=
  ⟨(updatePageAction_slug_conflict
      { pages := [exRootA, exRootB], translations := [] } 1 "T" "b" false false).1
      (by decide) ⟨exRootA, by decide, by decide⟩ ⟨exRootB, by decide, by decide, by decide⟩,
   (updatePageAction_slug_conflict
      { pages := [exRootA, exRootB], translations := [] } 1 "T" "a" false false).2
      (by decide) exRootA (by decide) (by decide) (by decide)⟩

/-! ## Occurrence in a menu forest -/

theorem menuHasId_map_mk (k : Nat) (t : Page → String) (f : Page → List MenuItem) :
    ∀ m : List Page,
      menuHasId k (m.map (fun p => MenuItem.mk p.id (t p) p.slug p.fullPath (f p))) = true →
      ∃ p ∈ m, p.id = k ∨ menuHasId k (f p) = true := by
  intro m
  induction m with
  | nil => intro h; simp [menuHasId] at h
  | cons a rest ih =>
    intro h
    simp only [List.map_cons, menuHasId, Bool.or_eq_true] at h
    rcases h with (h | h) | h
    · exact ⟨a, List.mem_cons_self a rest, Or.inl (by simpa using h)⟩
    · exact ⟨a, List.mem_cons_self a rest, Or.inr h⟩
    · obtain ⟨p, hp, hk⟩ := ih h
      exact ⟨p, List.mem_cons_of_mem a hp, hk⟩

/-- Any page id occurring anywhere in `buildMenuForest` belongs to an
included page whose parent is either the level's `parentId` or another
included page. -/
theorem menuHasId_buildMenuForest :
    ∀ fuel included titleOf x k,
      menuHasId k (buildMenuForest fuel included titleOf x) = true →
      ∃ q ∈ included, q.id = k ∧
        (q.parentId = x ∨ ∃ r ∈ included, q.parentId = some r.id) := by
  intro fuel
  induction fuel with
  | zero =>
    intro included titleOf x k h
    simp [buildMenuForest, menuHasId] at h
  | succ n ih =>
    intro included titleOf x k h
    rw [buildMenuForest] at h
    obtain ⟨p, hpmem, hk⟩ := menuHasId_map_mk k titleOf _ _ h
    have hpx : p.parentId = x := by simpa using List.of_mem_filter hpmem
    have hpin : p ∈ included := List.mem_of_mem_filter hpmem
    rcases hk with hk | hk
    · exact ⟨p, hpin, hk, Or.inl hpx⟩
    · obtain ⟨q, hq, hqk, hrest⟩ := ih included titleOf (some p.id) k hk
      refine ⟨q, hq, hqk, Or.inr ?_⟩
      rcases hrest with hq1 | ⟨r, hr, hr2⟩
      · exact ⟨p, hpin, hq1⟩
      · exact ⟨r, hr, hr2⟩

/-- Membership in the filtered, sorted list `getMenuTree` builds from. -/
theorem mem_menuIncluded {db : DB} {locale : String} {q : Page}
    (hq : q ∈ (orderBySortOrder (db.pages.filter (fun p => p.showOnMenu))).filter (fun p =>
      db.translations.any (fun t => t.pageId == p.id && t.locale == locale && t.published))) :
    q ∈ db.pages ∧ passesMenuFilter db locale q = true := by
  have hqtr := List.of_mem_filter hq
  have hq2 : q ∈ orderBySortOrder (db.pages.filter (fun p => p.showOnMenu)) :=
    List.mem_of_mem_filter hq
  have hq3 : q ∈ db.pages.filter (fun p => p.showOnMenu) :=
    ((orderBySortOrder_perm _).mem_iff).1 hq2
  have hqshow := List.of_mem_filter hq3
  have hq4 : q ∈ db.pages := List.mem_of_mem_filter hq3
  refine ⟨hq4, ?_⟩
  simp only [passesMenuFilter, Bool.and_eq_true]
  exact ⟨hqshow, hqtr⟩

/-! ## C5 -/

/-- C5: a page with `showOnMenu = false`, or with no published
translation for the requested locale, never occurs at any depth in
`getMenuTree`'s output (page ids identify rows uniquely: `id` is the
table's primary key). -/
theorem getMenuTree_filter_sound (db : DB) (locale : String) (p : Page)
    (hN : (db.pages.map Page.id).Nodup) (hp : p ∈ db.pages)
    (h : p.showOnMenu = false ∨
      ∀ t ∈ db.translations, t.pageId = p.id → t.locale = locale → t.published = false) :
    menuHasId p.id (getMenuTree db locale) = false := by
  by_contra hcon
  rw [Bool.not_eq_false] at hcon
  rw [getMenuTree] at hcon
  obtain ⟨q, hq, hqk, _⟩ := menuHasId_buildMenuForest _ _ _ _ _ hcon
  obtain ⟨hq4, hqpass⟩ := mem_menuIncluded hq
  have hqp : q = p := List.inj_on_of_nodup_map hN hq4 hp hqk
  subst hqp
  simp only [passesMenuFilter, Bool.and_eq_true, List.any_eq_true] at hqpass
  obtain ⟨hqshow, t, ht, htp⟩ := hqpass
  rcases h with hshow | htr
  · rw [hshow] at hqshow
    exact Bool.false_ne_true hqshow
  · simp only [Bool.and_eq_true, beq_iff_eq] at htp
    obtain ⟨⟨ht1, ht2⟩, ht3⟩ := htp
    have := htr t ht ht1 ht2
    rw [this] at ht3
    exact Bool.false_ne_true ht3

/-- Witness for C5: the menu-hidden parent of `exMenuDB` (which does have
a published English translation) never occurs in the English menu. -/
theorem getMenuTree_filter_sound_witness :
    menuHasId 1 (getMenuTree exMenuDB "en") = false :=
  getMenuTree_filter_sound exMenuDB "en" exMenuParent (by decide) (by decide)
    (Or.inl (by decide))

/-! ## C4 -/

/-- C4 counterexample: in `exMenuDB` the child passes the menu filter
while its parent is excluded, yet the child's id occurs nowhere in the
returned tree — it is dropped, not reparented to the root level as the
claim states. -/
theorem getMenuTree_orphan_counterexample :
    passesMenuFilter exMenuDB "en" exMenuChild = true ∧
    passesMenuFilter exMenuDB "en" exMenuParent = false ∧
    exMenuChild ∈ exMenuDB.pages ∧ exMenuChild.parentId = some exMenuParent.id ∧
    menuHasId exMenuChild.id (getMenuTree exMenuDB "en") = false := by
  refine ⟨by decide, by decide, by decide, by decide, ?_⟩
  simp [getMenuTree, buildMenuForest, menuHasId, exMenuDB, exMenuParent, exMenuChild,
    exTrParent, exTrChild, orderBySortOrder, insertBySortOrder, menuTitleOf]

/-- C4 (amended): a page whose parent page was excluded by the menu
filter does not appear in `getMenuTree`'s output at all — the source
drops such an item rather than reparenting it to the root level. -/
theorem getMenuTree_drops_orphans (db : DB) (locale : String) (p : Page) (z : Nat)
    (hN : (db.pages.map Page.id).Nodup) (hp : p ∈ db.pages) (hpar : p.parentId = some z)
    (hz : ∀ r ∈ db.pages, r.id = z → passesMenuFilter db locale r = false) :
    menuHasId p.id (getMenuTree db locale) = false := by
  by_contra hcon
  rw [Bool.not_eq_false] at hcon
  rw [getMenuTree] at hcon
  obtain ⟨q, hq, hqk, hrest⟩ := menuHasId_buildMenuForest _ _ _ _ _ hcon
  obtain ⟨hq4, _⟩ := mem_menuIncluded hq
  have hqp : q = p := List.inj_on_of_nodup_map hN hq4 hp hqk
  subst hqp
  rcases hrest with h1 | ⟨r, hr, hr2⟩
  · rw [hpar] at h1
    exact Option.noConfusion h1
  · obtain ⟨hr4, hrpass⟩ := mem_menuIncluded hr
    have hrz : r.id = z := by
      rw [hpar] at hr2
      exact (Option.some.inj hr2).symm
    rw [hz r hr4 hrz] at hrpass
    exact Bool.false_ne_true hrpass

/-- Witness for the amended C4 at a concrete store: the visible child of
the hidden parent is absent from the English menu. -/
theorem getMenuTree_drops_orphans_witness :
    menuHasId 2 (getMenuTree exMenuDB "en") = false :=
  getMenuTree_drops_orphans exMenuDB "en" exMenuChild 1 (by decide) (by decide)
    (by decide) (by decide)

/-! ## Segment-level facts about joining and splitting paths -/

theorem joinSegs_concat (xs : List String) (s : String) (hxs : xs ≠ []) :
    joinSegs (xs ++ [s]) = joinSegs xs ++ "/" ++ s := by
  induction xs with
  | nil => exact absurd rfl hxs
  | cons a rest ih =>
    cases rest with
    | nil => rfl
    | cons b t =>
      have h2 := ih (by simp)
      simp only [List.cons_append, List.append_eq, joinSegs] at h2 ⊢
      rw [h2]
      simp [String.ext_iff, String.data_append, List.append_assoc]

theorem splitSlashChars_ne_nil (l : List Char) : splitSlashChars l ≠ [] := by
  induction l with
  | nil => simp [splitSlashChars]
  | cons c rest ih =>
    rw [splitSlashChars]
    cases h : splitSlashChars rest with
    | nil => exact absurd h ih
    | cons s ss =>
      by_cases hc : c == '/'
      · simp [hc]
      · simp [hc]

theorem splitSlashChars_no_slash (cs : List Char) (h : ('/' : Char) ∉ cs) :
    splitSlashChars cs = [String.mk cs] := by
  induction cs with
  | nil => rfl
  | cons c rest ih =>
    have hc : ¬ (c == '/') = true := by
      simp only [beq_iff_eq]
      intro hcc
      exact h (hcc ▸ List.mem_cons_self c rest)
    have hr : ('/' : Char) ∉ rest := fun hm => h (List.mem_cons_of_mem c hm)
    rw [splitSlashChars, ih hr]
    simp [hc]

theorem splitSlashChars_append (cs rest : List Char) (h : ('/' : Char) ∉ cs) :
    splitSlashChars (cs ++ '/' :: rest) = String.mk cs :: splitSlashChars rest := by
  induction cs with
  | nil =>
    rw [List.nil_append, splitSlashChars]
    cases hr : splitSlashChars rest with
    | nil => exact absurd hr (splitSlashChars_ne_nil rest)
    | cons s ss => simp
  | cons c cs ih =>
    have hc : ¬ (c == '/') = true := by
      simp only [beq_iff_eq]
      intro hcc
      exact h (hcc ▸ List.mem_cons_self c cs)
    have hcs : ('/' : Char) ∉ cs := fun hm => h (List.mem_cons_of_mem c hm)
    rw [List.cons_append, splitSlashChars, ih hcs]
    simp [hc]

/-- Splitting a slash-joined list of slash-free segments recovers the
segments. -/
theorem splitSlash_joinSegs (segs : List String) (hne : segs ≠ [])
    (hfree : ∀ s ∈ segs, ('/' : Char) ∉ s.data) :
    splitSlash (joinSegs segs) = segs := by
  induction segs with
  | nil => exact absurd rfl hne
  | cons a rest ih =>
    cases rest with
    | nil =>
      show splitSlashChars (joinSegs [a]).data = [a]
      rw [show joinSegs [a] = a from rfl]
      rw [splitSlashChars_no_slash a.data (hfree a (List.mem_cons_self a []))]
    | cons b t =>
      have hstep : joinSegs (a :: b :: t) = a ++ "/" ++ joinSegs (b :: t) := rfl
      show splitSlashChars (joinSegs (a :: b :: t)).data = a :: b :: t
      rw [hstep]
      have hdata : (a ++ "/" ++ joinSegs (b :: t)).data =
          a.data ++ '/' :: (joinSegs (b :: t)).data := by
        rw [String.data_append, String.data_append]
        simp
      rw [hdata, splitSlashChars_append a.data _ (hfree a (List.mem_cons_self a _))]
      have := ih (by simp) (fun s hs => hfree s (List.mem_cons_of_mem a hs))
      rw [show splitSlashChars (joinSegs (b :: t)).data = splitSlash (joinSegs (b :: t)) from rfl,
        this]

theorem startsWithChars_append (a b : List Char) : startsWithChars a (a ++ b) = true := by
  induction a with
  | nil => rfl
  | cons c cs ih => simp [startsWithChars, ih]

theorem startsWithChars_exists {a c : List Char} (h : startsWithChars a c = true) :
    ∃ b, c = a ++ b := by
  induction a generalizing c with
  | nil => exact ⟨c, rfl⟩
  | cons x xs ih =>
    cases c with
    | nil => simp [startsWithChars] at h
    | cons y ys =>
      rw [startsWithChars, Bool.and_eq_true] at h
      obtain ⟨b, hb⟩ := ih h.2
      have hxy : x = y := by simpa using h.1
      exact ⟨b, by rw [hb, hxy]; rfl⟩

/-! ## C2 -/

/-- Root of the three-page chain `about / team / lead` of the spec's
Strategy B scenario. -/
def exChainA : Page :=
  { id := 1, title := "About", slug := "about", fullPath := "about",
    isDraft := false, showOnMenu := true, parentId := none, sortOrder := 0 }

/-- Middle page of the chain, child of `exChainA`. -/
def exChainB : Page :=
  { id := 2, title := "Team", slug := "team", fullPath := "about/team",
    isDraft := false, showOnMenu := true, parentId := some 1, sortOrder := 0 }

/-- Leaf of the chain, child of `exChainB`. -/
def exChainC : Page :=
  { id := 3, title := "Lead", slug := "lead", fullPath := "about/team/lead",
    isDraft := false, showOnMenu := true, parentId := some 2, sortOrder := 0 }

/-- The store holding the three-page chain. -/
def exChainDB : DB :=
  { pages := [exChainA, exChainB, exChainC], translations := [] }

/-- C2: renaming one page's slug through Strategy B sets that page's
`fullPath` to its old parent prefix joined with the new slug, rewrites
every page whose stored `fullPath` extends the old `fullPath` plus `/`
by replacing exactly that prefix, and leaves every other page untouched
(row by row, via `Forall₂` over the table).  On the three-page chain
`about / team / lead`, renaming the root slug to `about-us` yields the
three expected paths, and the single prefix-match query selects exactly
the 2 descendant rows. -/
theorem updateFullPathForSlugChange_rewrites :
    (∀ (db : DB) (pageId : Nat) (ns : String) (page : Page) (pre : List String) (c : String),
      db.pages.find? (fun r => r.id == pageId) = some page →
      page.fullPath = joinSegs (pre ++ [c]) →
      (∀ s ∈ pre ++ [c], ('/' : Char) ∉ s.data) →
      (updateFullPathForSlugChange db pageId ns).translations = db.translations ∧
      List.Forall₂ (fun p p' =>
        (p.id = pageId → p' = { p with slug := ns, fullPath := joinSegs (pre ++ [ns]) }) ∧
        (p.id ≠ pageId → ∀ rest : String, p.fullPath = page.fullPath ++ "/" ++ rest →
          p' = { p with fullPath := joinSegs (pre ++ [ns]) ++ "/" ++ rest }) ∧
        (p.id ≠ pageId → (∀ rest : String, p.fullPath ≠ page.fullPath ++ "/" ++ rest) →
          p' = p))
        db.pages (updateFullPathForSlugChange db pageId ns).pages) ∧
    ((updateFullPathForSlugChange exChainDB 1 "about-us").pages.map (fun p => p.fullPath) =
      ["about-us", "about-us/team", "about-us/team/lead"] ∧
     exChainDB.pages.countP
      (fun p => !(p.id == 1) && startsWithChars ("about" ++ "/").data p.fullPath.data) = 2) := by
  constructor
  · intro db pageId ns page pre c hfind hfp hfree
    have hsplit : splitSlash page.fullPath = pre ++ [c] := by
      rw [hfp]
      exact splitSlash_joinSegs _ (by simp) hfree
    have hnfp : (if (splitSlash page.fullPath).length ≤ 1 then ns
        else joinSegs (splitSlash page.fullPath).dropLast ++ "/" ++ ns) =
        joinSegs (pre ++ [ns]) := by
      rw [hsplit]
      cases pre with
      | nil => simp [joinSegs]
      | cons x xs =>
        have hlen : ¬ ((x :: xs) ++ [c]).length ≤ 1 := by simp
        rw [if_neg hlen, List.dropLast_concat, joinSegs_concat _ _ (by simp)]
    constructor
    · simp only [updateFullPathForSlugChange, hfind]
    · simp only [updateFullPathForSlugChange, hfind]
      rw [List.forall₂_map_right_iff, List.forall₂_same]
      intro p hp
      refine ⟨?_, ?_, ?_⟩
      · intro hpid
        have hbeq : (p.id == pageId) = true := by simpa using hpid
        simp only [hbeq, if_true, hnfp]
      · intro hne rest hrest
        have hbeq : (p.id == pageId) = false := by simpa using hne
        have hdata : p.fullPath.data = (page.fullPath ++ "/").data ++ rest.data := by
          rw [hrest, String.data_append]
        have hstart : startsWithChars (page.fullPath ++ "/").data p.fullPath.data = true := by
          rw [hdata]
          exact startsWithChars_append _ _
        simp only [hbeq, Bool.false_eq_true, if_false, hstart, if_true, hnfp]
        congr 1
        apply String.ext
        have hdrop : p.fullPath.data.drop page.fullPath.data.length = '/' :: rest.data := by
          rw [hdata, String.data_append]
          have : (page.fullPath.data ++ ("/" : String).data) ++ rest.data =
              page.fullPath.data ++ (('/' : Char) :: rest.data) := by
            simp
          rw [this, List.drop_left]
        rw [String.data_append, hdrop]
        rw [String.data_append, String.data_append]
        simp
      · intro hne hno
        have hbeq : (p.id == pageId) = false := by simpa using hne
        cases hstart : startsWithChars (page.fullPath ++ "/").data p.fullPath.data with
        | true =>
          obtain ⟨b, hb⟩ := startsWithChars_exists hstart
          refine absurd (String.ext ?_ : p.fullPath = (page.fullPath ++ "/") ++ String.mk b)
            (hno (String.mk b))
          simp [hb, String.data_append]
        | false =>
          simp only [hbeq, Bool.false_eq_true, if_false, hstart]
  · constructor
    · decide
    · decide

/-! ## Strategy C: batch recompute from the tree -/

/-- Modelled from the spec: `buildFullPathMap(tree, parentPath)` (§4.2
tree-to-map mode; the body in `lib/page.ts` is absent from the source
tree, only its contract is documented in
`src/docs/FULL_PATH_IMPLEMENTATION.md`): a single depth-first walk
emitting `(id, path)` for every node, where a root-level node's path is
its own slug and a deeper node's path is `parentPath + "/" + slug`; the
accumulator is `none` at the root level. -/
def buildFullPathMap : List PageTreeNode → Option String → List (Nat × String)
  | [], _ => []
  | PageTreeNode.mk page _ _ children :: rest, parentPath =>
    let nodePath :=
      match parentPath with
      | none => page.slug
      | some pp => pp ++ "/" ++ page.slug
    (page.id, nodePath) ::
      (buildFullPathMap children (some nodePath) ++ buildFullPathMap rest parentPath)

/-- One single-row `UPDATE pages SET full_path WHERE id` from the batch:
the row takes the path computed for its id, or is left alone when the
tree does not mention it. -/
def applyPathMap (pm : List (Nat × String)) (p : Page) : Page :=
  match pm.find? (fun e => e.1 == p.id) with
  | some e => { p with fullPath := e.2 }
  | none => p

/-- Modelled from the spec: Strategy C, `updateFullPathsForTree(tree)`
(§4.3; `src/docs/FULL_PATH_IMPLEMENTATION.md`): walk the tree once
building the id-to-path map, then unconditionally write every computed
path back, one single-row update per node; since `id` is the table's
primary key the batch is one rewrite of the table. -/
def updateFullPathsForTree (db : DB) (tree : List PageTreeNode) : DB :=
  { db with pages := db.pages.map (applyPathMap (buildFullPathMap tree none)) }

/-- The Strategy C pass as `savePageOrder` (`src/app/actions/page.ts`)
runs it: rebuild the tree from the current table and batch recompute
every `fullPath`. -/
def runStrategyC (db : DB) : DB :=
  updateFullPathsForTree db (getPagesTree db)

theorem applyPathMap_id (pm : List (Nat × String)) (p : Page) :
    (applyPathMap pm p).id = p.id := by
  unfold applyPathMap
  cases pm.find? (fun e => e.1 == p.id) <;> rfl

theorem applyPathMap_parentId (pm : List (Nat × String)) (p : Page) :
    (applyPathMap pm p).parentId = p.parentId := by
  unfold applyPathMap
  cases pm.find? (fun e => e.1 == p.id) <;> rfl

theorem applyPathMap_slug (pm : List (Nat × String)) (p : Page) :
    (applyPathMap pm p).slug = p.slug := by
  unfold applyPathMap
  cases pm.find? (fun e => e.1 == p.id) <;> rfl

theorem applyPathMap_sortOrder (pm : List (Nat × String)) (p : Page) :
    (applyPathMap pm p).sortOrder = p.sortOrder := by
  unfold applyPathMap
  cases pm.find? (fun e => e.1 == p.id) <;> rfl

theorem applyPathMap_applyPathMap (pm : List (Nat × String)) (p : Page) :
    applyPathMap pm (applyPathMap pm p) = applyPathMap pm p := by
  unfold applyPathMap
  cases h : pm.find? (fun e => e.1 == p.id) with
  | none => rw [h]
  | some e =>
    have : pm.find? (fun u => u.1 == ({ p with fullPath := e.2 } : Page).id) =
        pm.find? (fun u => u.1 == p.id) := rfl
    rw [this, h]

theorem filter_map_comm (f : Page → Page) (q : Page → Bool) (hq : ∀ p, q (f p) = q p) :
    ∀ l : List Page, (l.map f).filter q = (l.filter q).map f := by
  intro l
  induction l with
  | nil => rfl
  | cons a rest ih =>
    simp only [List.map_cons, List.filter_cons, hq a]
    cases q a with
    | true => simp [ih]
    | false => simpa using ih

theorem insertBySortOrder_map (f : Page → Page)
    (hf : ∀ p, (f p).sortOrder = p.sortOrder) (p : Page) :
    ∀ l : List Page, insertBySortOrder (f p) (l.map f) = (insertBySortOrder p l).map f := by
  intro l
  induction l with
  | nil => rfl
  | cons q rest ih =>
    simp only [List.map_cons, insertBySortOrder, hf]
    by_cases h : q.sortOrder < p.sortOrder
    · simp [h, ih]
    · simp [h]

theorem orderBySortOrder_map (f : Page → Page)
    (hf : ∀ p, (f p).sortOrder = p.sortOrder) :
    ∀ l : List Page, orderBySortOrder (l.map f) = (orderBySortOrder l).map f := by
  intro l
  induction l with
  | nil => rfl
  | cons p rest ih =>
    simp only [List.map_cons, orderBySortOrder, ih]
    exact insertBySortOrder_map f hf p (orderBySortOrder rest)

theorem buildFullPathMap_nil (pp : Option String) : buildFullPathMap [] pp = [] := by
  rw [buildFullPathMap.eq_def]

theorem buildFullPathMap_cons (pg : Page) (tl : List PageTranslation)
    (tr : Option PageTranslation) (children rest : List PageTreeNode) (pp : Option String) :
    buildFullPathMap (PageTreeNode.mk pg tl tr children :: rest) pp =
      (pg.id, match pp with | none => pg.slug | some s => s ++ "/" ++ pg.slug) ::
      (buildFullPathMap children
          (some (match pp with | none => pg.slug | some s => s ++ "/" ++ pg.slug)) ++
        buildFullPathMap rest pp) := by
  rw [buildFullPathMap.eq_def]

/-- The id-to-path map ignores every page field other than `id`,
`parentId` and `slug`: rewriting the list through any function that
preserves those three (for instance a `fullPath` rewrite) and exchanging
the translations map leaves the computed paths unchanged. -/
theorem buildFullPathMap_buildPageTree_map (f : Page → Page)
    (hid : ∀ p, (f p).id = p.id) (hpar : ∀ p, (f p).parentId = p.parentId)
    (hslug : ∀ p, (f p).slug = p.slug) :
    ∀ fuel (l : List Page) tm tm2 (x : Option Nat) (pp : Option String),
      buildFullPathMap (buildPageTree fuel (l.map f) tm x) pp =
      buildFullPathMap (buildPageTree fuel l tm2 x) pp := by
  intro fuel
  induction fuel with
  | zero => intro l tm tm2 x pp; rfl
  | succ n ih =>
    intro l tm tm2 x pp
    simp only [buildPageTree]
    rw [filter_map_comm f (fun p => p.parentId == x)
      (fun p => by show ((f p).parentId == x) = (p.parentId == x); rw [hpar]) l]
    generalize l.filter (fun p => p.parentId == x) = m
    induction m generalizing pp with
    | nil => rfl
    | cons a rest ihm =>
      simp only [List.map_cons, List.map_map, Function.comp] at ihm ⊢
      rw [buildFullPathMap_cons, buildFullPathMap_cons]
      cases pp with
      | none =>
        simp only [hid, hslug]
        exact congrArg₂ _ rfl
          (congrArg₂ _ (ih l tm tm2 (some a.id) (some a.slug)) (ihm none))
      | some s =>
        simp only [hid, hslug]
        exact congrArg₂ _ rfl
          (congrArg₂ _ (ih l tm tm2 (some a.id) (some (s ++ "/" ++ a.slug))) (ihm (some s)))

/-! ## C7 -/

/-- C7: running Strategy C twice in succession with no intervening change
to the table yields, for every page, the same stored state after the
second run as after the first — the second run changes nothing.  The
id-to-path map depends only on `id`, `parentId`, `slug` and `sortOrder`,
none of which the first run touches, so the second run recomputes the
same map and overwrites every `fullPath` with the value it already
holds. -/
theorem runStrategyC_idempotent (db : DB) :
    runStrategyC (runStrategyC db) = runStrategyC db := by
  have hpm : buildFullPathMap (getPagesTree (runStrategyC db)) none =
      buildFullPathMap (getPagesTree db) none := by
    show buildFullPathMap
        (buildPageTree ((orderBySortOrder (runStrategyC db).pages).length + 1)
          (orderBySortOrder (runStrategyC db).pages)
          (translationsMapOf (runStrategyC db).translations) none) none =
      buildFullPathMap
        (buildPageTree ((orderBySortOrder db.pages).length + 1)
          (orderBySortOrder db.pages) (translationsMapOf db.translations) none) none
    rw [show (runStrategyC db).pages =
        db.pages.map (applyPathMap (buildFullPathMap (getPagesTree db) none)) from rfl,
      show (runStrategyC db).translations = db.translations from rfl,
      orderBySortOrder_map _ (applyPathMap_sortOrder _) db.pages,
      List.length_map]
    exact buildFullPathMap_buildPageTree_map _ (applyPathMap_id _) (applyPathMap_parentId _)
      (applyPathMap_slug _) ((orderBySortOrder db.pages).length + 1) (orderBySortOrder db.pages)
      (translationsMapOf db.translations) (translationsMapOf db.translations) none none
  show updateFullPathsForTree (runStrategyC db) (getPagesTree (runStrategyC db)) = runStrategyC db
  unfold updateFullPathsForTree
  rw [hpm]
  have hpages : (runStrategyC db).pages.map
      (applyPathMap (buildFullPathMap (getPagesTree db) none)) = (runStrategyC db).pages := by
    show (db.pages.map (applyPathMap (buildFullPathMap (getPagesTree db) none))).map
        (applyPathMap (buildFullPathMap (getPagesTree db) none)) =
      db.pages.map (applyPathMap (buildFullPathMap (getPagesTree db) none))
    rw [List.map_map]
    exact List.map_congr_left (fun p _ => applyPathMap_applyPathMap _ p)
  rw [hpages]

/-! ## Tree-mode lookup and well-formed tables -/

/-- Modelled from the spec: tree-mode lookup (§4.2; the body of
`getFullPathFromTree` in `lib/page.ts` is absent from the source tree):
depth-first search of the already-built tree for the node with the given
id, returning its bottom-up precomputed path — a root-level node's path
is its own slug, a deeper node's path is `parentPath + "/" + slug` — and
null when the id is not found. -/
def findPathInForest : List PageTreeNode → Option String → Nat → Option String
  | [], _, _ => none
  | PageTreeNode.mk page _ _ children :: rest, pp, pid =>
    let nodePath :=
      match pp with
      | none => page.slug
      | some s => s ++ "/" ++ page.slug
    if page.id == pid then some nodePath
    else
      match findPathInForest children (some nodePath) pid with
      | some r => some r
      | none => findPathInForest rest pp pid

/-- `getFullPathFromTree(tree, pageId)`. -/
def getFullPathFromTree (tree : List PageTreeNode) (pageId : Nat) : Option String :=
  findPathInForest tree none pageId

/-- The database-mode path of a page id over a bare pages list (the body
of `generateFullPath` with the table passed explicitly). -/
def genPath (l : List Page) (a : Nat) : String :=
  joinSegs (generateFullPathLoop l.length l (some a) [])

/-- A depth certificate for a pages table: root rows have depth 0 and
every child row sits exactly one level below a stored parent row.  An
acyclic table whose parent pointers all resolve admits such a
certificate (each row's ancestor-chain length); a table with a parent
cycle or a dangling parent pointer admits none. -/
def depthCertified (l : List Page) (depth : Nat → Nat) : Bool :=
  l.all (fun p =>
    match p.parentId with
    | none => depth p.id == 0
    | some a => l.any (fun q => q.id == a && depth p.id == depth q.id + 1))

theorem depthCertified_root {l : List Page} {depth : Nat → Nat} {p : Page}
    (hC : depthCertified l depth = true) (hp : p ∈ l) (hr : p.parentId = none) :
    depth p.id = 0 := by
  rw [depthCertified, List.all_eq_true] at hC
  have := hC p hp
  rw [hr] at this
  simpa using this

theorem depthCertified_child {l : List Page} {depth : Nat → Nat} {p : Page} {a : Nat}
    (hC : depthCertified l depth = true) (hp : p ∈ l) (ha : p.parentId = some a) :
    ∃ q ∈ l, q.id = a ∧ depth p.id = depth q.id + 1 := by
  rw [depthCertified, List.all_eq_true] at hC
  have := hC p hp
  rw [ha, List.any_eq_true] at this
  obtain ⟨q, hq, hq2⟩ := this
  rw [Bool.and_eq_true] at hq2
  exact ⟨q, hq, by simpa using hq2.1, by simpa using hq2.2⟩

/-- First-match lookup by id finds the unique matching row of a
duplicate-free table. -/
theorem find?_id_of_nodup {l : List Page} {q : Page} {a : Nat}
    (hN : (l.map Page.id).Nodup) (hq : q ∈ l) (hqa : q.id = a) :
    l.find? (fun p => p.id == a) = some q := by
  induction l with
  | nil => exact absurd hq (List.not_mem_nil q)
  | cons h t ih =>
    rw [List.map_cons, List.nodup_cons] at hN
    by_cases hh : (h.id == a) = true
    · rw [List.find?_cons, hh]
      rcases List.mem_cons.1 hq with rfl | hqt
      · rfl
      · exfalso
        apply hN.1
        rw [beq_iff_eq] at hh
        rw [show h.id = q.id from hh.trans hqa.symm]
        exact List.mem_map_of_mem Page.id hqt
    · rw [List.find?_cons, show (h.id == a) = false from by simpa using hh]
      rcases List.mem_cons.1 hq with rfl | hqt
      · exact absurd (by simpa using hqa) hh
      · exact ih hN.2 hqt

theorem generateFullPathLoop_append :
    ∀ (fuel : Nat) (l : List Page) (x : Option Nat) (acc : List String),
      generateFullPathLoop fuel l x acc = generateFullPathLoop fuel l x [] ++ acc := by
  intro fuel
  induction fuel with
  | zero => intro l x acc; cases x <;> rfl
  | succ n ih =>
    intro l x acc
    cases x with
    | none => rfl
    | some cid =>
      rw [generateFullPathLoop, generateFullPathLoop]
      cases hf : l.find? (fun p => p.id == cid) with
      | none => rfl
      | some page =>
        show generateFullPathLoop n l page.parentId (page.slug :: acc) =
          generateFullPathLoop n l page.parentId [page.slug] ++ acc
        rw [ih l page.parentId (page.slug :: acc), ih l page.parentId [page.slug]]
        simp

theorem generateFullPathLoop_none (fuel : Nat) (l : List Page) (acc : List String) :
    generateFullPathLoop fuel l none acc = acc := by
  cases fuel <;> rfl

theorem generateFullPathLoop_step {l : List Page} {cid : Nat} {page : Page}
    (m : Nat) (acc : List String) (hf : l.find? (fun p => p.id == cid) = some page) :
    generateFullPathLoop (m + 1) l (some cid) acc =
    generateFullPathLoop m l page.parentId (page.slug :: acc) := by
  rw [generateFullPathLoop, hf]

/-- A page of depth `n` in a certified table heads a chain of `n + 1`
pairwise-distinct stored ids, each of depth at most `n`. -/
theorem depth_chain {l : List Page} {depth : Nat → Nat}
    (hC : depthCertified l depth = true) :
    ∀ n (p : Page), p ∈ l → depth p.id = n →
      ∃ c : List Nat, c.length = n + 1 ∧ c.Nodup ∧
        (∀ e ∈ c, ∃ q ∈ l, q.id = e) ∧ (∀ e ∈ c, depth e ≤ n) := by
  intro n
  induction n using Nat.strong_induction_on with
  | _ n ih =>
    intro p hp hd
    cases hpar : p.parentId with
    | none =>
      have h0 : depth p.id = 0 := depthCertified_root hC hp hpar
      have hn0 : n = 0 := by omega
      subst hn0
      refine ⟨[p.id], by simp, List.nodup_singleton _, ?_, ?_⟩
      · intro e he
        rcases List.mem_singleton.1 he with rfl
        exact ⟨p, hp, rfl⟩
      · intro e he
        rcases List.mem_singleton.1 he with rfl
        omega
    | some a =>
      obtain ⟨q, hq, hqa, hdd⟩ := depthCertified_child hC hp hpar
      have hn : n = depth q.id + 1 := by omega
      obtain ⟨c, hlen, hnd, hmem, hbound⟩ := ih (depth q.id) (by omega) q hq rfl
      refine ⟨p.id :: c, by simp [hlen]; omega, ?_, ?_, ?_⟩
      · rw [List.nodup_cons]
        refine ⟨fun hin => ?_, hnd⟩
        have := hbound p.id hin
        omega
      · intro e he
        rcases List.mem_cons.1 he with rfl | he2
        · exact ⟨p, hp, rfl⟩
        · exact hmem e he2
      · intro e he
        rcases List.mem_cons.1 he with rfl | he2
        · omega
        · have := hbound e he2
          omega

/-- Depths in a certified duplicate-free table are bounded by the table
size: a chain of `depth + 1` distinct stored ids cannot exceed the
number of rows. -/
theorem depth_lt_length {l : List Page} {depth : Nat → Nat}
    (_hN : (l.map Page.id).Nodup) (hC : depthCertified l depth = true)
    {p : Page} (hp : p ∈ l) : depth p.id + 1 ≤ l.length := by
  obtain ⟨c, hlen, hnd, hmem, _⟩ := depth_chain hC (depth p.id) p hp rfl
  have hsub : c.toFinset ⊆ (l.map Page.id).toFinset := by
    intro e he
    rw [List.mem_toFinset] at he ⊢
    obtain ⟨q, hq, rfl⟩ := hmem e he
    exact List.mem_map_of_mem Page.id hq
  have h1 : c.toFinset.card = c.length := List.toFinset_card_of_nodup hnd
  have h2 := Finset.card_le_card hsub
  have h3 := List.toFinset_card_le (l.map Page.id)
  rw [List.length_map] at h3
  omega

/-- The database-mode walk stabilizes once the fuel covers the page's
depth: any fuel at least `depth + 1` computes the same segments. -/
theorem generateFullPathLoop_fuel {l : List Page} {depth : Nat → Nat}
    (hN : (l.map Page.id).Nodup) (hC : depthCertified l depth = true) :
    ∀ n (q : Page), q ∈ l → depth q.id = n →
      ∀ fuel, n + 1 ≤ fuel →
        generateFullPathLoop fuel l (some q.id) [] =
        generateFullPathLoop (n + 1) l (some q.id) [] := by
  intro n
  induction n using Nat.strong_induction_on with
  | _ n ih =>
    intro q hq hd fuel hfuel
    have hfind := find?_id_of_nodup hN hq rfl
    obtain ⟨m, rfl⟩ : ∃ m, fuel = m + 1 := ⟨fuel - 1, by omega⟩
    cases hpar : q.parentId with
    | none =>
      rw [generateFullPathLoop_step m [] hfind, hpar, generateFullPathLoop_none]
      rw [generateFullPathLoop_step n [] hfind, hpar, generateFullPathLoop_none]
    | some a =>
      obtain ⟨q2, hq2, hq2a, hdd⟩ := depthCertified_child hC hq hpar
      have hk : n = depth q2.id + 1 := by omega
      rw [generateFullPathLoop_step m [] hfind, hpar,
        generateFullPathLoop_step n [] hfind, hpar]
      rw [show a = q2.id from hq2a.symm]
      rw [generateFullPathLoop_append m l (some q2.id) [q.slug],
        generateFullPathLoop_append n l (some q2.id) [q.slug]]
      have h1 := ih (depth q2.id) (by omega) q2 hq2 rfl m (by omega)
      have h2 := ih (depth q2.id) (by omega) q2 hq2 rfl n (by omega)
      rw [h1, h2]

/-- Database-mode path of a root page: just its slug. -/
theorem genPath_root {l : List Page} {p : Page}
    (hN : (l.map Page.id).Nodup) (hp : p ∈ l) (hr : p.parentId = none) :
    genPath l p.id = p.slug := by
  obtain ⟨m, hm⟩ : ∃ m, l.length = m + 1 := by
    cases hl : l.length with
    | zero =>
      rw [List.length_eq_zero] at hl
      exact absurd (hl ▸ hp) (List.not_mem_nil p)
    | succ k => exact ⟨k, rfl⟩
  rw [genPath, hm, generateFullPathLoop_step m [] (find?_id_of_nodup hN hp rfl), hr,
    generateFullPathLoop_none]
  rfl

/-- Database-mode path of a child page: its parent's path, `/`, its
slug. -/
theorem genPath_child {l : List Page} {depth : Nat → Nat} {p : Page} {b : Nat}
    (hN : (l.map Page.id).Nodup) (hC : depthCertified l depth = true)
    (hp : p ∈ l) (hb : p.parentId = some b) :
    genPath l p.id = genPath l b ++ "/" ++ p.slug := by
  obtain ⟨q2, hq2, hq2b, hdd⟩ := depthCertified_child hC hp hb
  have hbound := depth_lt_length hN hC hp
  obtain ⟨m, hm⟩ : ∃ m, l.length = m + 1 := by
    cases hl : l.length with
    | zero =>
      rw [List.length_eq_zero] at hl
      exact absurd (hl ▸ hp) (List.not_mem_nil p)
    | succ k => exact ⟨k, rfl⟩
  have hstep : generateFullPathLoop l.length l (some p.id) [] =
      generateFullPathLoop m l (some b) [p.slug] := by
    rw [hm, generateFullPathLoop_step m [] (find?_id_of_nodup hN hp rfl), hb]
  have hfuel : generateFullPathLoop m l (some b) [] =
      generateFullPathLoop l.length l (some b) [] := by
    rw [show b = q2.id from hq2b.symm]
    have hmge : depth q2.id + 1 ≤ m := by omega
    have h1 := generateFullPathLoop_fuel hN hC (depth q2.id) q2 hq2 rfl m hmge
    have h2 := generateFullPathLoop_fuel hN hC (depth q2.id) q2 hq2 rfl l.length (by omega)
    rw [h1, h2]
  have hne : generateFullPathLoop l.length l (some b) [] ≠ [] := by
    rw [hm, generateFullPathLoop_step m []
      (find?_id_of_nodup hN hq2 (by rw [hq2b]) : l.find? (fun r => r.id == b) = some q2)]
    rw [generateFullPathLoop_append]
    simp
  rw [genPath, hstep, generateFullPathLoop_append, hfuel, genPath]
  exact joinSegs_concat _ _ hne

theorem findPathInForest_nil (pp : Option String) (pid : Nat) :
    findPathInForest [] pp pid = none := by
  rw [findPathInForest.eq_def]

theorem findPathInForest_cons (pg : Page) (tl : List PageTranslation)
    (tr : Option PageTranslation) (children rest : List PageTreeNode)
    (pp : Option String) (pid : Nat) :
    findPathInForest (PageTreeNode.mk pg tl tr children :: rest) pp pid =
      if pg.id == pid then
        some (match pp with | none => pg.slug | some s => s ++ "/" ++ pg.slug)
      else
        match findPathInForest children
            (some (match pp with | none => pg.slug | some s => s ++ "/" ++ pg.slug)) pid with
        | some r => some r
        | none => findPathInForest rest pp pid := by
  rw [findPathInForest.eq_def]

/-- DFS over one level of nodes: when each node's displayed path is the
database-mode path of its id, and each node's subtree only ever yields
the database-mode path of the searched id, so does the whole level. -/
theorem findPathInForest_map_sound {pid : Nat} {gp : Nat → String}
    (mkTr : Page → List PageTranslation) (mkT : Page → Option PageTranslation)
    (ch : Page → List PageTreeNode) :
    ∀ (m : List Page) (pp : Option String),
      (∀ u ∈ m, (match pp with | none => u.slug | some s => s ++ "/" ++ u.slug) = gp u.id) →
      (∀ u ∈ m, ∀ r, findPathInForest (ch u) (some (gp u.id)) pid = some r → r = gp pid) →
      ∀ r, findPathInForest
          (m.map (fun u => PageTreeNode.mk u (mkTr u) (mkT u) (ch u))) pp pid = some r →
        r = gp pid := by
  intro m
  induction m with
  | nil =>
    intro pp _ _ r h
    rw [List.map_nil, findPathInForest_nil] at h
    exact absurd h (Option.noConfusion)
  | cons a ms ih =>
    intro pp h1 h2 r h
    rw [List.map_cons, findPathInForest_cons] at h
    have hnode := h1 a (List.mem_cons_self a ms)
    by_cases haid : (a.id == pid) = true
    · rw [if_pos haid] at h
      have hr : r = gp a.id := by
        rw [← hnode]
        exact (Option.some.inj h).symm
      rw [hr, show a.id = pid from by simpa using haid]
    · rw [if_neg haid, hnode] at h
      cases hch : findPathInForest (ch a) (some (gp a.id)) pid with
      | some r2 =>
        rw [hch] at h
        rw [show r = r2 from (Option.some.inj h).symm]
        exact h2 a (List.mem_cons_self a ms) r2 hch
      | none =>
        rw [hch] at h
        exact ih pp (fun u hu => h1 u (List.mem_cons_of_mem a hu))
          (fun u hu => h2 u (List.mem_cons_of_mem a hu)) r h

/-- Soundness of the tree-mode lookup against the database-mode
generator: whatever path the DFS over the built tree returns for an id
is that id's database-mode path. -/
theorem findPathInForest_sound {l : List Page} {depth : Nat → Nat}
    (hN : (l.map Page.id).Nodup) (hC : depthCertified l depth = true)
    (tm : Nat → List PageTranslation) :
    ∀ fuel (x : Option Nat) (pp : Option String),
      ((x = none ∧ pp = none) ∨
        (∃ b qb, qb ∈ l ∧ qb.id = b ∧ x = some b ∧ pp = some (genPath l b))) →
      ∀ pid r, findPathInForest (buildPageTree fuel l tm x) pp pid = some r →
        r = genPath l pid := by
  intro fuel
  induction fuel with
  | zero =>
    intro x pp _ pid r h
    rw [show buildPageTree 0 l tm x = [] from rfl, findPathInForest_nil] at h
    exact absurd h (Option.noConfusion)
  | succ n ih =>
    intro x pp hppok pid r h
    rw [buildPageTree] at h
    refine findPathInForest_map_sound _ _ _ (l.filter (fun page => page.parentId == x)) pp
      ?_ ?_ r h
    · intro u hu
      have hal : u ∈ l := List.mem_of_mem_filter hu
      have hax : u.parentId = x := by simpa using List.of_mem_filter hu
      rcases hppok with ⟨rfl, rfl⟩ | ⟨b, qb, hqb, hqbid, rfl, rfl⟩
      · exact (genPath_root hN hal hax).symm
      · exact (genPath_child hN hC hal hax).symm
    · intro u hu r2 h2
      have hal : u ∈ l := List.mem_of_mem_filter hu
      exact ih (some u.id) (some (genPath l u.id))
        (Or.inr ⟨u.id, u, hal, rfl, rfl, rfl⟩) pid r2 h2

/-- Whether a node with the given page id occurs anywhere (at any depth)
in a page forest. -/
def forestHasId (k : Nat) : List PageTreeNode → Bool
  | [] => false
  | PageTreeNode.mk page _ _ children :: rest =>
    page.id == k || forestHasId k children || forestHasId k rest

theorem forestHasId_nil (k : Nat) : forestHasId k [] = false := by
  rw [forestHasId.eq_def]

theorem forestHasId_cons (k : Nat) (pg : Page) (tl : List PageTranslation)
    (tr : Option PageTranslation) (children rest : List PageTreeNode) :
    forestHasId k (PageTreeNode.mk pg tl tr children :: rest) =
      (pg.id == k || forestHasId k children || forestHasId k rest) := by
  rw [forestHasId.eq_def]

/-- The DFS returns `none` only when the id occurs nowhere in the
forest. -/
theorem findPathInForest_none :
    ∀ (F : List PageTreeNode) (pp : Option String) (pid : Nat),
      findPathInForest F pp pid = none → forestHasId pid F = false := by
  intro F pp pid
  induction F, pp, pid using findPathInForest.induct with
  | case1 pp pid =>
    intro _
    exact forestHasId_nil pid
  | case2 page tl tr children rest pp pid hfound =>
    intro h
    rw [findPathInForest_cons, if_pos hfound] at h
    exact absurd h (Option.noConfusion)
  | case3 page tl tr children rest pp pid nodePath hmiss r hsome ihch =>
    intro h
    rw [findPathInForest_cons, if_neg hmiss, hsome] at h
    exact absurd h (Option.noConfusion)
  | case4 page tl tr children rest pp pid nodePath hmiss hnone ihch ihrest =>
    intro h
    rw [findPathInForest_cons, if_neg hmiss, hnone] at h
    rw [forestHasId_cons, Bool.or_eq_false_iff, Bool.or_eq_false_iff]
    refine ⟨⟨by simpa using hmiss, ihch hnone⟩, ihrest h⟩

theorem forestHasId_map_mem {pid : Nat} (mkTr : Page → List PageTranslation)
    (mkT : Page → Option PageTranslation) (ch : Page → List PageTreeNode) :
    ∀ m : List Page, ∀ u ∈ m, u.id = pid →
      forestHasId pid (m.map (fun u => PageTreeNode.mk u (mkTr u) (mkT u) (ch u))) = true := by
  intro m
  induction m with
  | nil => intro u hu; exact absurd hu (List.not_mem_nil u)
  | cons a ms ih =>
    intro u hu hup
    rw [List.map_cons, forestHasId_cons]
    rcases List.mem_cons.1 hu with rfl | hu2
    · simp [hup]
    · rw [ih u hu2 hup]
      simp

theorem forestHasId_map_child {pid : Nat} (mkTr : Page → List PageTranslation)
    (mkT : Page → Option PageTranslation) (ch : Page → List PageTreeNode) :
    ∀ m : List Page, ∀ u ∈ m, forestHasId pid (ch u) = true →
      forestHasId pid (m.map (fun u => PageTreeNode.mk u (mkTr u) (mkT u) (ch u))) = true := by
  intro m
  induction m with
  | nil => intro u hu; exact absurd hu (List.not_mem_nil u)
  | cons a ms ih =>
    intro u hu hch
    rw [List.map_cons, forestHasId_cons]
    rcases List.mem_cons.1 hu with rfl | hu2
    · rw [hch]
      simp
    · rw [ih u hu2 hch]
      simp

theorem forestHasId_map_step {pid : Nat} (mkTr : Page → List PageTranslation)
    (mkT : Page → Option PageTranslation) (ch ch2 : Page → List PageTreeNode)
    (hch : ∀ u, forestHasId pid (ch u) = true → forestHasId pid (ch2 u) = true) :
    ∀ m : List Page,
      forestHasId pid (m.map (fun u => PageTreeNode.mk u (mkTr u) (mkT u) (ch u))) = true →
      forestHasId pid (m.map (fun u => PageTreeNode.mk u (mkTr u) (mkT u) (ch2 u))) = true := by
  intro m
  induction m with
  | nil =>
    intro h
    rw [List.map_nil, forestHasId_nil] at h
    exact absurd h (Bool.false_ne_true)
  | cons a ms ih =>
    intro h
    rw [List.map_cons, forestHasId_cons] at h ⊢
    rcases Bool.or_eq_true_iff.1 h with h1 | h2
    · rcases Bool.or_eq_true_iff.1 h1 with h3 | h4
      · rw [h3]
        simp
      · rw [hch a h4]
        simp
    · rw [ih h2]
      simp

/-- Occurrence in the built tree is monotone in the fuel. -/
theorem buildPageTree_mono {l : List Page} {tm : Nat → List PageTranslation} {pid : Nat} :
    ∀ fuel fuel2 (x : Option Nat), fuel ≤ fuel2 →
      forestHasId pid (buildPageTree fuel l tm x) = true →
      forestHasId pid (buildPageTree fuel2 l tm x) = true := by
  intro fuel
  induction fuel with
  | zero =>
    intro fuel2 x _ h
    rw [show buildPageTree 0 l tm x = [] from rfl, forestHasId_nil] at h
    exact absurd h (Bool.false_ne_true)
  | succ n ih =>
    intro fuel2 x hle h
    obtain ⟨m, rfl⟩ : ∃ m, fuel2 = m + 1 := ⟨fuel2 - 1, by omega⟩
    rw [buildPageTree] at h ⊢
    exact forestHasId_map_step _ _ _ _ (fun u => ih m (some u.id) (by omega)) _ h

/-- A node's occurrence below a stored page lifts one level up, to the
page's own parent level. -/
theorem forestHasId_up {l : List Page} {tm : Nat → List PageTranslation} {pid : Nat}
    {q : Page} (hq : q ∈ l) (fuel : Nat) (x : Option Nat) (hqx : q.parentId = x)
    (h : forestHasId pid (buildPageTree fuel l tm (some q.id)) = true) :
    forestHasId pid (buildPageTree (fuel + 1) l tm x) = true := by
  rw [buildPageTree]
  exact forestHasId_map_child _ _ _ _ q (List.mem_filter.2 ⟨hq, by simp [hqx]⟩) h

/-- Occurrence below a stored page of depth `n` lifts to the root level
with `n + 1` extra fuel. -/
theorem forestHasId_lift {l : List Page} {tm : Nat → List PageTranslation} {pid : Nat}
    {depth : Nat → Nat} (hC : depthCertified l depth = true) :
    ∀ n (b : Nat) (qb : Page), qb ∈ l → qb.id = b → depth b = n →
      ∀ fuel0, forestHasId pid (buildPageTree fuel0 l tm (some b)) = true →
        forestHasId pid (buildPageTree (fuel0 + n + 1) l tm none) = true := by
  intro n
  induction n using Nat.strong_induction_on with
  | _ n ih =>
    intro b qb hqb hqbid hd fuel0 h
    subst hqbid
    cases hpar : qb.parentId with
    | none =>
      have h0 : depth qb.id = 0 := depthCertified_root hC hqb hpar
      have hn0 : n = 0 := by omega
      subst hn0
      exact forestHasId_up hqb fuel0 none hpar h
    | some c =>
      obtain ⟨q2, hq2, hq2c, hdd⟩ := depthCertified_child hC hqb hpar
      have h1 : forestHasId pid (buildPageTree (fuel0 + 1) l tm (some c)) = true :=
        forestHasId_up hqb fuel0 (some c) hpar h
      have h2 := ih (depth q2.id) (by omega) c q2 hq2 hq2c
        (by rw [← hq2c]) (fuel0 + 1) h1
      have hidx : fuel0 + 1 + depth q2.id + 1 = fuel0 + n + 1 := by omega
      rwa [hidx] at h2

/-- Every stored page id occurs in the full tree built with fuel
`l.length + 1`. -/
theorem forestHasId_complete {l : List Page} (tm : Nat → List PageTranslation)
    {depth : Nat → Nat} (hN : (l.map Page.id).Nodup)
    (hC : depthCertified l depth = true) {p : Page} (hp : p ∈ l) :
    forestHasId p.id (buildPageTree (l.length + 1) l tm none) = true := by
  cases hpar : p.parentId with
  | none =>
    rw [buildPageTree]
    exact forestHasId_map_mem _ _ _ _ p (List.mem_filter.2 ⟨hp, by simp [hpar]⟩) rfl
  | some b =>
    obtain ⟨q2, hq2, hq2b, hdd⟩ := depthCertified_child hC hp hpar
    have h1 : forestHasId p.id (buildPageTree (0 + 1) l tm (some b)) = true := by
      rw [buildPageTree]
      exact forestHasId_map_mem _ _ _ _ p (List.mem_filter.2 ⟨hp, by simp [hpar]⟩) rfl
    have h2 := forestHasId_lift hC (depth b) b q2 hq2 hq2b rfl (0 + 1) h1
    have hb2 : depth q2.id + 1 ≤ l.length := depth_lt_length hN hC hq2
    refine buildPageTree_mono (0 + 1 + depth b + 1) (l.length + 1) none ?_ h2
    rw [← hq2b] at *
    omega

theorem depthCertified_perm {l l2 : List Page} (h : l.Perm l2) {depth : Nat → Nat}
    (hC : depthCertified l depth = true) : depthCertified l2 depth = true := by
  rw [depthCertified, List.all_eq_true] at hC ⊢
  intro p hp
  have hc := hC p (h.mem_iff.2 hp)
  cases hpar : p.parentId with
  | none =>
    rw [hpar] at hc
    exact hc
  | some a =>
    rw [hpar] at hc
    have hc2 : l.any (fun q => q.id == a && depth p.id == depth q.id + 1) = true := hc
    show l2.any (fun q => q.id == a && depth p.id == depth q.id + 1) = true
    rw [List.any_eq_true] at hc2 ⊢
    obtain ⟨q, hq, hprop⟩ := hc2
    exact ⟨q, h.mem_iff.1 hq, hprop⟩

/-- The database-mode walk only queries single rows by id, so it cannot
tell two permutations of a duplicate-free table apart. -/
theorem generateFullPathLoop_perm {l l2 : List Page} (hperm : l.Perm l2)
    (hN : (l.map Page.id).Nodup) :
    ∀ fuel (x : Option Nat) (acc : List String),
      generateFullPathLoop fuel l x acc = generateFullPathLoop fuel l2 x acc := by
  intro fuel
  induction fuel with
  | zero => intro x acc; cases x <;> rfl
  | succ n ih =>
    intro x acc
    cases x with
    | none => rfl
    | some cid =>
      have hfind : l2.find? (fun p => p.id == cid) = l.find? (fun p => p.id == cid) := by
        cases hf : l.find? (fun p => p.id == cid) with
        | some page =>
          have hmem := List.mem_of_find?_eq_some hf
          have hpp := List.find?_some hf
          have hN2 : (l2.map Page.id).Nodup := ((hperm.map Page.id).nodup_iff).1 hN
          exact find?_id_of_nodup hN2 (hperm.mem_iff.1 hmem) (by simpa using hpp)
        | none =>
          rw [List.find?_eq_none] at hf ⊢
          intro u hu
          exact hf u (hperm.mem_iff.2 hu)
      rw [generateFullPathLoop, generateFullPathLoop, hfind]
      cases hf : l.find? (fun p => p.id == cid) with
      | none => rfl
      | some page => exact ih page.parentId (page.slug :: acc)

/-! ## C3 -/

/-- C3: for a pages table valid per its schema (primary-key ids) whose
parent pointers are acyclic and resolve — witnessed by a depth
certificate — the tree-mode lookup over the tree built from the full
page list returns exactly the database-mode generator's path, for every
stored page id. -/
theorem getFullPathFromTree_eq_generateFullPath (db : DB)
    (hN : (db.pages.map Page.id).Nodup)
    (hC : ∃ depth, depthCertified db.pages depth = true)
    (pid : Nat) (hpid : ∃ p ∈ db.pages, p.id = pid) :
    getFullPathFromTree (getPagesTree db) pid = some (generateFullPath db pid) := by
  obtain ⟨depth, hC⟩ := hC
  obtain ⟨p, hp, rfl⟩ := hpid
  have hperm : (orderBySortOrder db.pages).Perm db.pages := orderBySortOrder_perm db.pages
  have hN2 : ((orderBySortOrder db.pages).map Page.id).Nodup :=
    ((hperm.map Page.id).nodup_iff).2 hN
  have hC2 : depthCertified (orderBySortOrder db.pages) depth = true :=
    depthCertified_perm hperm.symm hC
  have hp2 : p ∈ orderBySortOrder db.pages := hperm.mem_iff.2 hp
  show findPathInForest
      (buildPageTree ((orderBySortOrder db.pages).length + 1) (orderBySortOrder db.pages)
        (translationsMapOf db.translations) none) none p.id =
    some (generateFullPath db p.id)
  cases hr : findPathInForest
      (buildPageTree ((orderBySortOrder db.pages).length + 1) (orderBySortOrder db.pages)
        (translationsMapOf db.translations) none) none p.id with
  | none =>
    exfalso
    have hocc := forestHasId_complete (translationsMapOf db.translations) hN2 hC2 hp2
    have hfalse := findPathInForest_none _ _ _ hr
    rw [hocc] at hfalse
    exact Bool.noConfusion hfalse
  | some r =>
    have hsound := findPathInForest_sound hN2 hC2 (translationsMapOf db.translations)
      ((orderBySortOrder db.pages).length + 1) none none (Or.inl ⟨rfl, rfl⟩) p.id r hr
    rw [hsound]
    have hlen : (orderBySortOrder db.pages).length = db.pages.length := hperm.length_eq
    rw [genPath, hlen, generateFullPathLoop_perm hperm hN2 db.pages.length (some p.id) []]
    rfl

/-- Witness for C3: on the three-page chain store, the tree-mode lookup
of the leaf equals the database-mode path. -/
theorem getFullPathFromTree_eq_generateFullPath_witness :
    getFullPathFromTree (getPagesTree exChainDB) 3 = some (generateFullPath exChainDB 3) :=
  getFullPathFromTree_eq_generateFullPath exChainDB (by decide)
    ⟨fun i => i - 1, by decide⟩ 3 ⟨exChainC, by decide, by decide⟩

/-- Witness for C2: the general rewrite statement applied to the
three-page chain, renaming the root slug to `about-us`. -/
theorem updateFullPathForSlugChange_rewrites_witness :
    (updateFullPathForSlugChange exChainDB 1 "about-us").translations = exChainDB.translations ∧
    List.Forall₂ (fun p p' =>
      (p.id = 1 → p' = { p with slug := "about-us", fullPath := joinSegs ([] ++ ["about-us"]) }) ∧
      (p.id ≠ 1 → ∀ rest : String, p.fullPath = exChainA.fullPath ++ "/" ++ rest →
        p' = { p with fullPath := joinSegs ([] ++ ["about-us"]) ++ "/" ++ rest }) ∧
      (p.id ≠ 1 → (∀ rest : String, p.fullPath ≠ exChainA.fullPath ++ "/" ++ rest) →
        p' = p))
      exChainDB.pages (updateFullPathForSlugChange exChainDB 1 "about-us").pages :=
  updateFullPathForSlugChange_rewrites.1 exChainDB 1 "about-us" exChainA [] "about"
    rfl rfl (by decide)

end Pucked
